import Mathlib

/-!
Verification of the PageRank core (`src/pagerank/pagerank.py`).

The Python code is shallowly embedded over exact rational arithmetic:

* a `Corpus` (the Python dict from page to its set of outbound links) is an
  association list `List (String × List String)`; dict-key uniqueness and
  set-ness of the edge lists are recorded by the `WellFormed` predicate;
* a `Dist` (the Python dict from page to probability) is an association list
  `List (String × ℚ)`;
* Python exceptions (`KeyError` on a missing dict key, `IndexError` from
  `random.choice` on an empty list, a `KeyError` raised inside a callee) are
  modelled with `Option`: `none` is an abnormal termination of the call;
* the random source of `random.choice` / `random.choices` is injected as a
  sequence `draws : ℕ → ℕ` of index picks: the i-th selection from a
  population list `l` returns the element at index `draws i % l.length`.
  Every behaviour of the library functions (which always return an element
  of the population) is a behaviour of some such sequence;
* the unbounded `while True` loop of `iterate_pagerank` is given an explicit
  fuel parameter; running out of fuel yields `none`, so termination of the
  Python loop is the existence of a sufficient fuel.
-/

namespace PageRank

abbrev Corpus := List (String × List String)

abbrev Dist := List (String × ℚ)

/-- The key list of a corpus or distribution dict, in insertion order. -/
def keysOf (corpus : Corpus) : List String :=
  corpus.map Prod.fst

/-- Dict read `dist[page]` for dicts whose keys are known to contain `page`
(inside the algorithms every read is of this kind); absent keys give 0. -/
def lookupD : Dist → String → ℚ
  | [], _ => 0
  | e :: rest, page => if e.1 = page then e.2 else lookupD rest page

/-- Dict read `corpus[page]`, `none` modelling `KeyError`. -/
def corpusLinks : Corpus → String → Option (List String)
  | [], _ => none
  | e :: rest, page => if e.1 = page then some e.2 else corpusLinks rest page

/-- Python `output[page] = output[page] + x`: the read raises `KeyError`
(`none`) when `page` is not a key. -/
def addAt : Dist → String → ℚ → Option Dist
  | [], _, _ => none
  | e :: rest, page, x =>
    if e.1 = page then some ((e.1, e.2 + x) :: rest)
    else
      match addAt rest page x with
      | none => none
      | some r => some (e :: r)

/-- Python dict assignment `output[page] = x` (the key is appended when new,
as a dict would). -/
def setAt : Dist → String → ℚ → Dist
  | [], page, x => [(page, x)]
  | e :: rest, page, x =>
    if e.1 = page then (page, x) :: rest else e :: setAt rest page x

/-- The loop `for linked_page in corpus[page]: output[linked_page] += x`
from `transition_model`. -/
def addToLinked : Dist → List String → ℚ → Option Dist
  | dist, [], _ => some dist
  | dist, l :: ls, x =>
    match addAt dist l x with
    | none => none
    | some r => addToLinked r ls x

/-- `transition_model(corpus, page, damping_factor)` (pagerank.py lines
52-83): baseline `(1-d)/N` for every page, plus `d/k` for each of the `k`
pages linked from `page`; a dangling `page` instead yields the uniform
distribution `1/N`. -/
def transition_model (corpus : Corpus) (page : String) (damping_factor : ℚ) :
    Option Dist :=
  let web_pages_count : ℚ := corpus.length
  let output : Dist :=
    corpus.map (fun e => (e.1, (1 - damping_factor) / web_pages_count))
  match corpusLinks corpus page with
  | none => none
  | some links =>
    if links = [] then
      some (corpus.map (fun e => (e.1, 1 / web_pages_count)))
    else
      addToLinked output links (damping_factor / (links.length : ℚ))

/-- Sum of the values of a distribution dict. -/
def dsum (dist : Dist) : ℚ :=
  (dist.map Prod.snd).sum

/-- One random selection from a population list, driven by an injected index
pick `k`; `none` models `random.choice` raising on an empty population. -/
def choosePage : List String → ℕ → Option String
  | [], _ => none
  | x :: xs, k =>
    some ((x :: xs).get ⟨k % (x :: xs).length, Nat.mod_lt k (Nat.succ_pos xs.length)⟩)

/-- Selection of the next sample (lines 103-116): in the first iteration
(`prev = none`) a uniform choice from all pages, afterwards a weighted
choice from the keys of the transition model of the previous sample. -/
def pickNext (corpus : Corpus) (damping_factor : ℚ) (draws : ℕ → ℕ) (i : ℕ) :
    Option String → Option String
  | none => choosePage (keysOf corpus) (draws i)
  | some s =>
    match transition_model corpus s damping_factor with
    | none => none
    | some t => choosePage (t.map Prod.fst) (draws i)

/-- The sampling loop `for i in range(n)` of `sample_pagerank` (lines
102-119): each drawn sample gets `1/n` added to its running value. -/
def sampleLoop (corpus : Corpus) (damping_factor : ℚ) (n : ℤ) (draws : ℕ → ℕ) :
    ℕ → ℕ → Option String → Dist → Option Dist
  | 0, _, _, output => some output
  | steps + 1, i, prev, output =>
    match pickNext corpus damping_factor draws i prev with
    | none => none
    | some sample =>
      match addAt output sample (1 / (n : ℚ)) with
      | none => none
      | some updated =>
        sampleLoop corpus damping_factor n draws steps (i + 1) (some sample) updated

/-- `sample_pagerank(corpus, damping_factor, n)` (lines 87-121): counts are
initialised to 0 over the corpus keys and `n.toNat` sampling steps run
(Python `range(n)` is empty for `n < 1`). -/
def sample_pagerank (corpus : Corpus) (damping_factor : ℚ) (n : ℤ)
    (draws : ℕ → ℕ) : Option Dist :=
  let output : Dist := corpus.map (fun e => (e.1, (0 : ℚ)))
  sampleLoop corpus damping_factor n draws n.toNat 0 none output

/-- The inner accumulation of `iterate_pagerank` (lines 146-160): the
probability of visiting `current_page` coming from each page of the corpus,
all reads being of the snapshot `output_copy`. -/
def prob_visit_from_other (corpus : Corpus) (output_copy : Dist)
    (current_page : String) : ℚ :=
  corpus.foldl
    (fun acc e =>
      if e.2 = [] then acc + lookupD output_copy e.1 / (corpus.length : ℚ)
      else if current_page ∈ e.2 then
        acc + lookupD output_copy e.1 / (e.2.length : ℚ)
      else acc)
    0

/-- One full pass of the `while True` body (lines 144-163): `output_copy`
is the deep copy of `output` taken before the pass, every page's new value
is written into `output` while all reads go to the snapshot. -/
def pass (corpus : Corpus) (damping_factor : ℚ) (output : Dist) : Dist :=
  (output.map Prod.fst).foldl
    (fun out current_page =>
      setAt out current_page
        ((1 - damping_factor) / (corpus.length : ℚ)
          + damping_factor * prob_visit_from_other corpus output current_page))
    output

/-- The convergence test list (lines 168-169): differences `new - old` for
the pages whose absolute change exceeds 0.001. -/
def significant_differences (output output_copy : Dist) : List ℚ :=
  ((output_copy.map Prod.fst).filter
    (fun page =>
      decide ((1 : ℚ) / 1000 < |lookupD output page - lookupD output_copy page|))).map
    (fun page => lookupD output page - lookupD output_copy page)

/-- The `while True` loop of `iterate_pagerank` (lines 142-173), with
explicit fuel: `none` models only "the loop has not stopped within `fuel`
passes". -/
def iterLoop (corpus : Corpus) (damping_factor : ℚ) : ℕ → Dist → Option Dist
  | 0, _ => none
  | fuel + 1, output =>
    let next := pass corpus damping_factor output
    if (significant_differences next output).length = 0 then some next
    else iterLoop corpus damping_factor fuel next

/-- The initial rank vector of `iterate_pagerank` (lines 135-139): every
page at `1/N`. -/
def initRank (corpus : Corpus) : Dist :=
  corpus.map (fun e => (e.1, 1 / (corpus.length : ℚ)))

/-- `iterate_pagerank(corpus, damping_factor)` (lines 125-175), fuelled. -/
def iterate_pagerank (corpus : Corpus) (damping_factor : ℚ) (fuel : ℕ) :
    Option Dist :=
  iterLoop corpus damping_factor fuel (initRank corpus)

/-- The Graph invariants of the data model: dict keys are unique, each edge
set is duplicate-free, and every edge target is itself a key. -/
def WellFormed (corpus : Corpus) : Prop :=
  (keysOf corpus).Nodup ∧
    ∀ e ∈ corpus, e.2.Nodup ∧ ∀ p ∈ e.2, p ∈ keysOf corpus

/-- The edge list of a node as the recurrence reads it (total form). -/
def linksOf (corpus : Corpus) (q : String) : List String :=
  (corpusLinks corpus q).getD []

/-- Column weight of the update matrix: the probability mass page `e.1`
sends to page `p` per unit of its own rank. -/
def wgt (corpus : Corpus) (e : String × List String) (p : String) : ℚ :=
  if e.2 = [] then 1 / (corpus.length : ℚ)
  else if p ∈ e.2 then 1 / (e.2.length : ℚ)
  else 0

/-- The update operator of the iterative estimator, as a function on rank
vectors `String → ℚ`. -/
def applyT (corpus : Corpus) (damping_factor : ℚ) (g : String → ℚ)
    (p : String) : ℚ :=
  (1 - damping_factor) / (corpus.length : ℚ)
    + damping_factor *
      Finset.sum corpus.toFinset (fun e => g e.1 * wgt corpus e p)

/-- The single-node corpus `{A: {}}` of the spec's concrete scenario 3. -/
def corpusA : Corpus := [("A", [])]


/-! ### Association-list lemmas -/

theorem lookupD_map_eval (g : String → ℚ) :
    ∀ (corpus : Corpus) (p : String),
      lookupD (corpus.map (fun e => (e.1, g e.1))) p =
        if p ∈ keysOf corpus then g p else 0 := by
  intro corpus
  induction corpus with
  | nil => intro p; simp [lookupD, keysOf]
  | cons e rest ih =>
    intro p
    by_cases h : e.1 = p
    · subst h; simp [lookupD, keysOf]
    · have h2 : ¬p = e.1 := fun hc => h hc.symm
      have hmem : (p ∈ keysOf (e :: rest)) ↔ (p ∈ keysOf rest) := by
        simp [keysOf, List.mem_cons, h2]
      simp only [List.map_cons, lookupD, if_neg h, ih p, hmem]

theorem keys_map_eval (g : String → ℚ) (corpus : Corpus) :
    (corpus.map (fun e => (e.1, g e.1))).map Prod.fst = keysOf corpus := by
  simp [keysOf, List.map_map]

theorem lookupD_setAt_self : ∀ (dist : Dist) (p : String) (x : ℚ),
    lookupD (setAt dist p x) p = x := by
  intro dist
  induction dist with
  | nil => intro p x; simp [setAt, lookupD]
  | cons e rest ih =>
    intro p x
    by_cases h : e.1 = p
    · simp [setAt, h, lookupD]
    · simp [setAt, h, lookupD, ih]

theorem lookupD_setAt_ne : ∀ (dist : Dist) (p q : String) (x : ℚ), q ≠ p →
    lookupD (setAt dist p x) q = lookupD dist q := by
  intro dist
  induction dist with
  | nil =>
    intro p q x hq
    have hpq : ¬p = q := fun hc => hq hc.symm
    simp [setAt, lookupD, hpq]
  | cons e rest ih =>
    intro p q x hq
    have hpq : ¬p = q := fun hc => hq hc.symm
    by_cases h : e.1 = p
    · have h2 : ¬e.1 = q := fun hc => hpq (h.symm.trans hc)
      simp [setAt, h, lookupD, hpq, h2]
    · by_cases h3 : e.1 = q
      · simp [setAt, h, lookupD, h3, hq]
      · simp [setAt, h, lookupD, h3, ih p q x hq]

theorem setAt_keys : ∀ (dist : Dist) (p : String) (x : ℚ), p ∈ dist.map Prod.fst →
    (setAt dist p x).map Prod.fst = dist.map Prod.fst := by
  intro dist
  induction dist with
  | nil => intro p x hp; simp at hp
  | cons e rest ih =>
    intro p x hp
    by_cases h : e.1 = p
    · simp [setAt, h]
    · have hp' : p = e.1 ∨ p ∈ rest.map Prod.fst := by
        rw [List.map_cons, List.mem_cons] at hp; exact hp
      have hp2 : p ∈ rest.map Prod.fst := by
        rcases hp' with h1 | h1
        · exact absurd h1.symm h
        · exact h1
      simp [setAt, h, ih p x hp2]

theorem lookupD_foldl_setAt (f : String → ℚ) :
    ∀ (ps : List String) (out0 : Dist) (p : String),
      lookupD (ps.foldl (fun out q => setAt out q (f q)) out0) p =
        if p ∈ ps then f p else lookupD out0 p := by
  intro ps
  induction ps with
  | nil => intro out0 p; simp
  | cons q ps ih =>
    intro out0 p
    simp only [List.foldl_cons, ih]
    by_cases hmem : p ∈ ps
    · simp [hmem]
    · by_cases hpq : p = q
      · subst hpq; simp [hmem, lookupD_setAt_self]
      · simp [hmem, hpq, lookupD_setAt_ne out0 q p (f q) hpq]

theorem keys_foldl_setAt (f : String → ℚ) :
    ∀ (ps : List String) (out0 : Dist), (∀ q ∈ ps, q ∈ out0.map Prod.fst) →
      (ps.foldl (fun out q => setAt out q (f q)) out0).map Prod.fst =
        out0.map Prod.fst := by
  intro ps
  induction ps with
  | nil => intro out0 _; simp
  | cons q ps ih =>
    intro out0 hsub
    have hq : q ∈ out0.map Prod.fst := hsub q (List.mem_cons_self q ps)
    have hkeys := setAt_keys out0 q (f q) hq
    simp only [List.foldl_cons]
    rw [ih (setAt out0 q (f q)) (fun r hr => hkeys ▸ hsub r (List.mem_cons_of_mem q hr)), hkeys]

theorem pass_lookup (corpus : Corpus) (d : ℚ) (output : Dist) (p : String) :
    lookupD (pass corpus d output) p =
      if p ∈ output.map Prod.fst then
        (1 - d) / (corpus.length : ℚ) + d * prob_visit_from_other corpus output p
      else lookupD output p :=
  lookupD_foldl_setAt
    (fun cp => (1 - d) / (corpus.length : ℚ) + d * prob_visit_from_other corpus output cp)
    (output.map Prod.fst) output p

theorem pass_keys (corpus : Corpus) (d : ℚ) (output : Dist) :
    (pass corpus d output).map Prod.fst = output.map Prod.fst :=
  keys_foldl_setAt _ (output.map Prod.fst) output (fun _ hq => hq)


/-! ### addAt / addToLinked lemmas -/

theorem addAt_cons (e : String × ℚ) (rest : Dist) (p : String) (x : ℚ) :
    addAt (e :: rest) p x =
      if e.1 = p then some ((e.1, e.2 + x) :: rest)
      else
        match addAt rest p x with
        | none => none
        | some r => some (e :: r) := rfl

theorem addAt_none_iff : ∀ (dist : Dist) (p : String) (x : ℚ),
    addAt dist p x = none ↔ p ∉ dist.map Prod.fst := by
  intro dist
  induction dist with
  | nil => intro p x; simp [addAt]
  | cons e rest ih =>
    intro p x
    have hcons : (p ∈ (e :: rest).map Prod.fst) ↔ (p = e.1 ∨ p ∈ rest.map Prod.fst) := by
      rw [List.map_cons, List.mem_cons]
    by_cases h : e.1 = p
    · constructor
      · intro hr; rw [addAt_cons, if_pos h] at hr; exact Option.noConfusion hr
      · intro hmem; exact absurd (hcons.mpr (Or.inl h.symm)) hmem
    · have h2 : ¬p = e.1 := fun hc => h hc.symm
      constructor
      · intro hr
        rw [addAt_cons, if_neg h] at hr
        cases h3 : addAt rest p x with
        | none =>
          intro hmem
          rcases hcons.mp hmem with hm | hm
          · exact h2 hm
          · exact (ih p x).mp h3 hm
        | some r => rw [h3] at hr; exact Option.noConfusion hr
      · intro hmem
        rw [addAt_cons, if_neg h]
        have hn : addAt rest p x = none :=
          (ih p x).mpr (fun hm => hmem (hcons.mpr (Or.inr hm)))
        rw [hn]

theorem addAt_some_of_mem : ∀ (dist : Dist) (p : String) (x : ℚ),
    p ∈ dist.map Prod.fst → ∃ r, addAt dist p x = some r := by
  intro dist p x hp
  cases hr : addAt dist p x with
  | none => exact absurd hp ((addAt_none_iff dist p x).mp hr)
  | some r => exact ⟨r, rfl⟩

theorem addAt_mem_of_some : ∀ (dist : Dist) (p : String) (x : ℚ) (r : Dist),
    addAt dist p x = some r → p ∈ dist.map Prod.fst := by
  intro dist p x r hr
  by_contra hmem
  rw [(addAt_none_iff dist p x).mpr hmem] at hr
  exact Option.noConfusion hr

theorem addAt_keys : ∀ (dist : Dist) (p : String) (x : ℚ) (r : Dist),
    addAt dist p x = some r → r.map Prod.fst = dist.map Prod.fst := by
  intro dist
  induction dist with
  | nil => intro p x r hr; simp [addAt] at hr
  | cons e rest ih =>
    intro p x r hr
    by_cases h : e.1 = p
    · simp [addAt, h] at hr
      subst hr; simp [h]
    · cases h2 : addAt rest p x with
      | none => simp [addAt, h, h2] at hr
      | some r2 =>
        simp [addAt, h, h2] at hr
        subst hr
        simp [ih p x r2 h2]

theorem addAt_lookup_self : ∀ (dist : Dist) (p : String) (x : ℚ) (r : Dist),
    addAt dist p x = some r → lookupD r p = lookupD dist p + x := by
  intro dist
  induction dist with
  | nil => intro p x r hr; simp [addAt] at hr
  | cons e rest ih =>
    intro p x r hr
    by_cases h : e.1 = p
    · simp [addAt, h] at hr
      subst hr; simp [lookupD, h]
    · cases h2 : addAt rest p x with
      | none => simp [addAt, h, h2] at hr
      | some r2 =>
        simp [addAt, h, h2] at hr
        subst hr
        simp [lookupD, h, ih p x r2 h2]

theorem addAt_lookup_ne : ∀ (dist : Dist) (p q : String) (x : ℚ) (r : Dist),
    addAt dist p x = some r → q ≠ p → lookupD r q = lookupD dist q := by
  intro dist
  induction dist with
  | nil => intro p q x r hr _; simp [addAt] at hr
  | cons e rest ih =>
    intro p q x r hr hq
    by_cases h : e.1 = p
    · simp [addAt, h] at hr
      subst hr
      have h2 : ¬p = q := fun hc => hq hc.symm
      simp [lookupD, h, h2]
    · cases h2 : addAt rest p x with
      | none => simp [addAt, h, h2] at hr
      | some r2 =>
        simp [addAt, h, h2] at hr
        subst hr
        simp [lookupD, ih p q x r2 h2 hq]

theorem addAt_dsum : ∀ (dist : Dist) (p : String) (x : ℚ) (r : Dist),
    addAt dist p x = some r → dsum r = dsum dist + x := by
  intro dist
  induction dist with
  | nil => intro p x r hr; simp [addAt] at hr
  | cons e rest ih =>
    intro p x r hr
    by_cases h : e.1 = p
    · simp [addAt, h] at hr
      subst hr; simp [dsum]; ring
    · cases h2 : addAt rest p x with
      | none => simp [addAt, h, h2] at hr
      | some r2 =>
        simp [addAt, h, h2] at hr
        subst hr
        simp [dsum] at *
        rw [ih p x r2 h2]; ring


theorem addToLinked_some : ∀ (links : List String) (dist : Dist) (x : ℚ),
    (∀ l ∈ links, l ∈ dist.map Prod.fst) →
    ∃ r, addToLinked dist links x = some r := by
  intro links
  induction links with
  | nil => intro dist x _; exact ⟨dist, rfl⟩
  | cons l ls ih =>
    intro dist x hsub
    obtain ⟨r2, hr2⟩ := addAt_some_of_mem dist l x (hsub l (List.mem_cons_self l ls))
    have hkeys := addAt_keys dist l x r2 hr2
    obtain ⟨r, hr⟩ :=
      ih r2 x (fun q hq => hkeys ▸ hsub q (List.mem_cons_of_mem l hq))
    exact ⟨r, by simp [addToLinked, hr2, hr]⟩

theorem addToLinked_keys : ∀ (links : List String) (dist : Dist) (x : ℚ) (r : Dist),
    addToLinked dist links x = some r → r.map Prod.fst = dist.map Prod.fst := by
  intro links
  induction links with
  | nil => intro dist x r hr; simp [addToLinked] at hr; subst hr; rfl
  | cons l ls ih =>
    intro dist x r hr
    cases ha : addAt dist l x with
    | none => simp [addToLinked, ha] at hr
    | some r2 =>
      simp [addToLinked, ha] at hr
      rw [ih r2 x r hr, addAt_keys dist l x r2 ha]

theorem addToLinked_lookup : ∀ (links : List String) (dist : Dist) (x : ℚ) (r : Dist),
    links.Nodup → addToLinked dist links x = some r →
    ∀ p, lookupD r p = lookupD dist p + (if p ∈ links then x else 0) := by
  intro links
  induction links with
  | nil => intro dist x r _ hr p; simp [addToLinked] at hr; subst hr; simp
  | cons l ls ih =>
    intro dist x r hnd hr p
    cases ha : addAt dist l x with
    | none => simp [addToLinked, ha] at hr
    | some r2 =>
      simp [addToLinked, ha] at hr
      have hnotmem : l ∉ ls := (List.nodup_cons.mp hnd).1
      have hnd2 : ls.Nodup := (List.nodup_cons.mp hnd).2
      by_cases hp : p = l
      · subst hp
        have h1 : lookupD r p = lookupD r2 p + (if p ∈ ls then x else 0) :=
          ih r2 x r hnd2 hr p
        have h2 : lookupD r2 p = lookupD dist p + x := addAt_lookup_self dist p x r2 ha
        simp [h1, h2, hnotmem, List.mem_cons]
      · have h1 : lookupD r p = lookupD r2 p + (if p ∈ ls then x else 0) :=
          ih r2 x r hnd2 hr p
        have h2 : lookupD r2 p = lookupD dist p := addAt_lookup_ne dist l p x r2 ha hp
        simp only [h1, h2, List.mem_cons]
        have hcond : (p = l ∨ p ∈ ls) ↔ p ∈ ls := by
          constructor
          · intro hc; rcases hc with hc | hc
            · exact absurd hc hp
            · exact hc
          · exact Or.inr
        simp only [hcond]

theorem addToLinked_dsum : ∀ (links : List String) (dist : Dist) (x : ℚ) (r : Dist),
    addToLinked dist links x = some r →
    dsum r = dsum dist + (links.length : ℚ) * x := by
  intro links
  induction links with
  | nil => intro dist x r hr; simp [addToLinked] at hr; subst hr; simp
  | cons l ls ih =>
    intro dist x r hr
    cases ha : addAt dist l x with
    | none => simp [addToLinked, ha] at hr
    | some r2 =>
      simp [addToLinked, ha] at hr
      rw [ih r2 x r hr, addAt_dsum dist l x r2 ha]
      simp only [List.length_cons]
      push_cast
      ring

theorem corpusLinks_cons (e : String × List String) (rest : Corpus) (page : String) :
    corpusLinks (e :: rest) page =
      if e.1 = page then some e.2 else corpusLinks rest page := rfl

theorem corpusLinks_none_iff : ∀ (corpus : Corpus) (page : String),
    corpusLinks corpus page = none ↔ page ∉ keysOf corpus := by
  intro corpus
  induction corpus with
  | nil => intro page; simp [corpusLinks, keysOf]
  | cons e rest ih =>
    intro page
    rw [corpusLinks_cons]
    by_cases h : e.1 = page
    · rw [if_pos h]
      constructor
      · intro hr; exact Option.noConfusion hr
      · intro hmem
        have hin : page ∈ keysOf (e :: rest) := by
          simp only [keysOf, List.map_cons, List.mem_cons]
          exact Or.inl h.symm
        exact absurd hin hmem
    · rw [if_neg h]
      have h2 : ¬page = e.1 := fun hc => h hc.symm
      have hcons : (page ∈ keysOf (e :: rest)) ↔ (page ∈ keysOf rest) := by
        simp only [keysOf, List.map_cons, List.mem_cons]
        constructor
        · intro hc
          rcases hc with hc | hc
          · exact absurd hc h2
          · exact hc
        · exact Or.inr
      rw [ih page]
      exact (not_congr hcons).symm

theorem corpusLinks_mem : ∀ (corpus : Corpus) (page : String) (ls : List String),
    corpusLinks corpus page = some ls → (page, ls) ∈ corpus := by
  intro corpus
  induction corpus with
  | nil => intro page ls hr; simp [corpusLinks] at hr
  | cons e rest ih =>
    intro page ls hr
    rcases e with ⟨e1, e2⟩
    by_cases h : e1 = page
    · have hr2 : some e2 = some ls := by
        simpa [corpusLinks_cons, h] using hr
      have h2 : e2 = ls := Option.some.inj hr2
      subst h2
      subst h
      exact List.mem_cons_self _ _
    · have hr2 : corpusLinks rest page = some ls := by
        simpa [corpusLinks_cons, h] using hr
      exact List.mem_cons_of_mem _ (ih page ls hr2)

theorem corpusLinks_entry : ∀ (corpus : Corpus), (keysOf corpus).Nodup →
    ∀ (q : String) (ls : List String), (q, ls) ∈ corpus →
    corpusLinks corpus q = some ls := by
  intro corpus
  induction corpus with
  | nil => intro _ q ls hmem; simp at hmem
  | cons e rest ih =>
    intro hnd q ls hmem
    have hnd2 : (keysOf rest).Nodup := (List.nodup_cons.mp (by simpa [keysOf] using hnd)).2
    have hnotmem : e.1 ∉ keysOf rest :=
      (List.nodup_cons.mp (by simpa [keysOf] using hnd)).1
    rcases List.mem_cons.mp hmem with hm | hm
    · have h1 : e.1 = q := by rw [← hm]
      simp [corpusLinks, h1, ← hm]
    · have hq : q ∈ keysOf rest := by
        simp only [keysOf, List.mem_map]
        exact ⟨(q, ls), hm, rfl⟩
      have h1 : ¬e.1 = q := fun hc => hnotmem (hc ▸ hq)
      simp [corpusLinks, h1, ih hnd2 q ls hm]

theorem dsum_map_const (corpus : Corpus) (c : ℚ) :
    dsum (corpus.map (fun e => (e.1, c))) = (corpus.length : ℚ) * c := by
  induction corpus with
  | nil => simp [dsum]
  | cons e rest ih =>
    simp only [List.map_cons, dsum, List.sum_cons, List.length_cons] at *
    rw [ih]
    push_cast
    ring

theorem transition_model_eq (corpus : Corpus) (page : String) (d : ℚ) :
    transition_model corpus page d =
      match corpusLinks corpus page with
      | none => none
      | some links =>
        if links = [] then
          some (corpus.map (fun e => (e.1, 1 / (corpus.length : ℚ))))
        else
          addToLinked (corpus.map (fun e => (e.1, (1 - d) / (corpus.length : ℚ))))
            links (d / (links.length : ℚ)) := rfl

theorem transition_model_of_none (corpus : Corpus) (page : String) (d : ℚ)
    (h : corpusLinks corpus page = none) :
    transition_model corpus page d = none := by
  rw [transition_model_eq, h]

theorem transition_model_dangling (corpus : Corpus) (page : String) (d : ℚ)
    (h : corpusLinks corpus page = some []) :
    transition_model corpus page d =
      some (corpus.map (fun e => (e.1, 1 / (corpus.length : ℚ)))) := by
  rw [transition_model_eq, h]
  rfl

theorem transition_model_linked (corpus : Corpus) (page : String) (d : ℚ)
    (links : List String) (h : corpusLinks corpus page = some links)
    (hne : links ≠ []) :
    transition_model corpus page d =
      addToLinked (corpus.map (fun e => (e.1, (1 - d) / (corpus.length : ℚ))))
        links (d / (links.length : ℚ)) := by
  rw [transition_model_eq, h]
  simp [hne]

theorem transition_model_keys : ∀ (corpus : Corpus) (page : String) (d : ℚ) (t : Dist),
    transition_model corpus page d = some t → t.map Prod.fst = keysOf corpus := by
  intro corpus page d t ht
  cases hl : corpusLinks corpus page with
  | none =>
    rw [transition_model_of_none corpus page d hl] at ht
    exact Option.noConfusion ht
  | some links =>
    by_cases hnil : links = []
    · subst hnil
      rw [transition_model_dangling corpus page d hl] at ht
      rw [← Option.some.inj ht]
      exact keys_map_eval (fun _ => 1 / (corpus.length : ℚ)) corpus
    · rw [transition_model_linked corpus page d links hl hnil] at ht
      rw [addToLinked_keys links _ _ t ht]
      exact keys_map_eval (fun _ => (1 - d) / (corpus.length : ℚ)) corpus

theorem transition_model_some (corpus : Corpus) (page : String) (d : ℚ)
    (hwf : WellFormed corpus) (hpage : page ∈ keysOf corpus) :
    ∃ t, transition_model corpus page d = some t := by
  cases hl : corpusLinks corpus page with
  | none => exact absurd hpage ((corpusLinks_none_iff corpus page).mp hl)
  | some links =>
    by_cases hnil : links = []
    · subst hnil
      exact ⟨_, transition_model_dangling corpus page d hl⟩
    · obtain ⟨r, hr⟩ := addToLinked_some links
        (corpus.map (fun e => (e.1, (1 - d) / (corpus.length : ℚ))))
        (d / (links.length : ℚ))
        (fun l hls => by
          rw [keys_map_eval (fun _ => (1 - d) / (corpus.length : ℚ)) corpus]
          exact (hwf.2 (page, links) (corpusLinks_mem corpus page links hl)).2 l hls)
      exact ⟨r, (transition_model_linked corpus page d links hl hnil).trans hr⟩


/-! ### Claims about the transition model -/

/-- Claim C2: for a non-empty graph, a damping factor in [0,1] and a page of
the graph with at least one outbound link, `transition_model` returns a
distribution giving every node the baseline `(1-d)/N`, plus exactly `d/k`
for the nodes linked from `page` (`k` the out-degree of `page`); unlinked
nodes keep only the baseline. -/
theorem claim_C2_transition_linked (corpus : Corpus) (d : ℚ) (page : String)
    (links : List String) (hwf : WellFormed corpus) (hne : corpus ≠ [])
    (hd0 : 0 ≤ d) (hd1 : d ≤ 1)
    (hl : corpusLinks corpus page = some links) (hlinks : links ≠ []) :
    ∃ t, transition_model corpus page d = some t ∧
      t.map Prod.fst = keysOf corpus ∧
      ∀ p ∈ keysOf corpus,
        lookupD t p =
          (1 - d) / (corpus.length : ℚ) +
            (if p ∈ links then d / (links.length : ℚ) else 0) := by
  have hmem := corpusLinks_mem corpus page links hl
  have hnd : links.Nodup := (hwf.2 (page, links) hmem).1
  have hsub : ∀ l ∈ links, l ∈ keysOf corpus := (hwf.2 (page, links) hmem).2
  have hbasekeys := keys_map_eval (fun _ => (1 - d) / (corpus.length : ℚ)) corpus
  obtain ⟨t, ht⟩ := addToLinked_some links
      (corpus.map (fun e => (e.1, (1 - d) / (corpus.length : ℚ))))
      (d / (links.length : ℚ))
      (fun l hls => by rw [hbasekeys]; exact hsub l hls)
  refine ⟨t, (transition_model_linked corpus page d links hl hlinks).trans ht, ?_, ?_⟩
  · rw [addToLinked_keys links _ _ t ht, hbasekeys]
  · intro p hp
    rw [addToLinked_lookup links _ _ t hnd ht p,
      lookupD_map_eval (fun _ => (1 - d) / (corpus.length : ℚ)) corpus p, if_pos hp]

/-- Witness for C2 on the two-node mutually-linking graph. -/
theorem claim_C2_witness :
    ∃ t, transition_model [("A", ["B"]), ("B", ["A"])] "A" (17/20) = some t ∧
      t.map Prod.fst = keysOf [("A", ["B"]), ("B", ["A"])] ∧
      ∀ p ∈ keysOf [("A", ["B"]), ("B", ["A"])],
        lookupD t p =
          (1 - 17/20) / ((([("A", ["B"]), ("B", ["A"])] : Corpus).length : ℚ) : ℚ) +
            (if p ∈ ["B"] then (17/20) / (((["B"] : List String).length : ℚ) : ℚ) else 0) :=
  claim_C2_transition_linked [("A", ["B"]), ("B", ["A"])] (17/20) "A" ["B"]
    (by constructor <;> decide) (by decide) (by norm_num) (by norm_num) (by decide) (by decide)

/-- Claim C3: for a non-empty graph, a damping factor in [0,1] and a
dangling page of the graph, `transition_model` returns exactly the uniform
distribution `1/N` over all nodes. -/
theorem claim_C3_transition_dangling (corpus : Corpus) (d : ℚ) (page : String)
    (hwf : WellFormed corpus) (hne : corpus ≠ []) (hd0 : 0 ≤ d) (hd1 : d ≤ 1)
    (hl : corpusLinks corpus page = some []) :
    ∃ t, transition_model corpus page d = some t ∧
      t.map Prod.fst = keysOf corpus ∧
      ∀ p ∈ keysOf corpus, lookupD t p = 1 / (corpus.length : ℚ) := by
  refine ⟨_, transition_model_dangling corpus page d hl,
    keys_map_eval (fun _ => 1 / (corpus.length : ℚ)) corpus, ?_⟩
  intro p hp
  rw [lookupD_map_eval (fun _ => 1 / (corpus.length : ℚ)) corpus p, if_pos hp]

/-- Witness for C3 on the single dangling node graph. -/
theorem claim_C3_witness :
    ∃ t, transition_model [("A", [])] "A" (17/20) = some t ∧
      t.map Prod.fst = keysOf [("A", [])] ∧
      ∀ p ∈ keysOf [("A", [])],
        lookupD t p = 1 / ((([("A", [])] : Corpus).length : ℚ) : ℚ) :=
  claim_C3_transition_dangling [("A", [])] (17/20) "A"
    (by constructor <;> decide) (by decide) (by norm_num) (by norm_num) (by decide)

/-- Claim C5: for a non-empty well-formed graph, a damping factor in [0,1]
and any page of the graph, `transition_model` succeeds, has exactly one
entry per node of the graph, and its values sum exactly to 1 (in exact
rational arithmetic). -/
theorem claim_C5_transition_normalized (corpus : Corpus) (d : ℚ) (page : String)
    (hwf : WellFormed corpus) (hne : corpus ≠ []) (hd0 : 0 ≤ d) (hd1 : d ≤ 1)
    (hpage : page ∈ keysOf corpus) :
    ∃ t, transition_model corpus page d = some t ∧
      t.map Prod.fst = keysOf corpus ∧ dsum t = 1 := by
  have hN : (corpus.length : ℚ) ≠ 0 :=
    Nat.cast_ne_zero.mpr (fun hc => hne (List.length_eq_zero.mp hc))
  cases hl : corpusLinks corpus page with
  | none => exact absurd hpage ((corpusLinks_none_iff corpus page).mp hl)
  | some links =>
    by_cases hnil : links = []
    · subst hnil
      refine ⟨_, transition_model_dangling corpus page d hl,
        keys_map_eval (fun _ => 1 / (corpus.length : ℚ)) corpus, ?_⟩
      rw [dsum_map_const corpus (1 / (corpus.length : ℚ))]
      field_simp
    · have hmem := corpusLinks_mem corpus page links hl
      have hsub : ∀ l ∈ links, l ∈ keysOf corpus := (hwf.2 (page, links) hmem).2
      have hbasekeys := keys_map_eval (fun _ => (1 - d) / (corpus.length : ℚ)) corpus
      obtain ⟨t, ht⟩ := addToLinked_some links
          (corpus.map (fun e => (e.1, (1 - d) / (corpus.length : ℚ))))
          (d / (links.length : ℚ))
          (fun l hls => by rw [hbasekeys]; exact hsub l hls)
      refine ⟨t, (transition_model_linked corpus page d links hl hnil).trans ht,
        by rw [addToLinked_keys links _ _ t ht, hbasekeys], ?_⟩
      have hk : (links.length : ℚ) ≠ 0 :=
        Nat.cast_ne_zero.mpr (fun hc => hnil (List.length_eq_zero.mp hc))
      rw [addToLinked_dsum links _ _ t ht,
        dsum_map_const corpus ((1 - d) / (corpus.length : ℚ))]
      field_simp

/-- Witness for C5 on a two-node graph with a dangling node. -/
theorem claim_C5_witness :
    ∃ t, transition_model [("A", []), ("B", ["A"])] "B" (17/20) = some t ∧
      t.map Prod.fst = keysOf [("A", []), ("B", ["A"])] ∧ dsum t = 1 :=
  claim_C5_transition_normalized [("A", []), ("B", ["A"])] (17/20) "B"
    (by constructor <;> decide) (by decide) (by norm_num) (by norm_num) (by decide)


/-! ### Sampling-loop lemmas -/

theorem choosePage_mem : ∀ (l : List String) (k : ℕ) (s : String),
    choosePage l k = some s → s ∈ l := by
  intro l k s h
  cases l with
  | nil => simp [choosePage] at h
  | cons x xs =>
    have h2 : (x :: xs).get ⟨k % (x :: xs).length, Nat.mod_lt k (Nat.succ_pos xs.length)⟩ = s :=
      Option.some.inj (by simpa [choosePage] using h)
    rw [← h2]
    exact List.get_mem _ _ _

theorem choosePage_some : ∀ (l : List String) (k : ℕ), l ≠ [] →
    ∃ s, choosePage l k = some s := by
  intro l k h
  cases l with
  | nil => exact absurd rfl h
  | cons x xs => exact ⟨_, rfl⟩

theorem pickNext_mem (corpus : Corpus) (d : ℚ) (draws : ℕ → ℕ) (i : ℕ) :
    ∀ (prev : Option String) (s : String),
      pickNext corpus d draws i prev = some s → s ∈ keysOf corpus := by
  intro prev s h
  cases prev with
  | none => exact choosePage_mem _ _ _ h
  | some q =>
    cases ht : transition_model corpus q d with
    | none => simp [pickNext, ht] at h
    | some t =>
      simp only [pickNext, ht] at h
      have := choosePage_mem _ _ _ h
      rwa [transition_model_keys corpus q d t ht] at this

theorem pickNext_some (corpus : Corpus) (d : ℚ) (draws : ℕ → ℕ) (i : ℕ)
    (hwf : WellFormed corpus) (hne : corpus ≠ []) :
    ∀ (prev : Option String), (∀ s, prev = some s → s ∈ keysOf corpus) →
      ∃ s, pickNext corpus d draws i prev = some s := by
  intro prev hprev
  have hkne : keysOf corpus ≠ [] := by
    intro hc
    exact hne (List.map_eq_nil.mp hc)
  cases prev with
  | none => exact choosePage_some _ (draws i) hkne
  | some q =>
    obtain ⟨t, ht⟩ := transition_model_some corpus q d hwf (hprev q rfl)
    have hkeys := transition_model_keys corpus q d t ht
    have htne : t.map Prod.fst ≠ [] := by rw [hkeys]; exact hkne
    obtain ⟨s, hs⟩ := choosePage_some _ (draws i) htne
    exact ⟨s, by simp [pickNext, ht, hs]⟩

theorem sampleLoop_keys (corpus : Corpus) (d : ℚ) (n : ℤ) (draws : ℕ → ℕ) :
    ∀ (steps i : ℕ) (prev : Option String) (output dist : Dist),
      sampleLoop corpus d n draws steps i prev output = some dist →
      dist.map Prod.fst = output.map Prod.fst := by
  intro steps
  induction steps with
  | zero =>
    intro i prev output dist h
    simp only [sampleLoop, Option.some.injEq] at h
    subst h
    rfl
  | succ steps ih =>
    intro i prev output dist h
    cases hp : pickNext corpus d draws i prev with
    | none =>
      simp only [sampleLoop, hp] at h
      exact Option.noConfusion h
    | some sample =>
      cases ha : addAt output sample (1 / (n : ℚ)) with
      | none =>
        simp only [sampleLoop, hp, ha] at h
        exact Option.noConfusion h
      | some updated =>
        simp only [sampleLoop, hp, ha] at h
        rw [ih (i + 1) (some sample) updated dist h,
          addAt_keys output sample _ updated ha]

theorem sampleLoop_dsum (corpus : Corpus) (d : ℚ) (n : ℤ) (draws : ℕ → ℕ) :
    ∀ (steps i : ℕ) (prev : Option String) (output dist : Dist),
      sampleLoop corpus d n draws steps i prev output = some dist →
      dsum dist = dsum output + (steps : ℚ) * (1 / (n : ℚ)) := by
  intro steps
  induction steps with
  | zero =>
    intro i prev output dist h
    simp only [sampleLoop, Option.some.injEq] at h
    subst h
    simp
  | succ steps ih =>
    intro i prev output dist h
    cases hp : pickNext corpus d draws i prev with
    | none =>
      simp only [sampleLoop, hp] at h
      exact Option.noConfusion h
    | some sample =>
      cases ha : addAt output sample (1 / (n : ℚ)) with
      | none =>
        simp only [sampleLoop, hp, ha] at h
        exact Option.noConfusion h
      | some updated =>
        simp only [sampleLoop, hp, ha] at h
        rw [ih (i + 1) (some sample) updated dist h,
          addAt_dsum output sample _ updated ha]
        push_cast
        ring

theorem sampleLoop_counts (corpus : Corpus) (d : ℚ) (n : ℤ) (draws : ℕ → ℕ) :
    ∀ (steps i : ℕ) (prev : Option String) (output dist : Dist),
      sampleLoop corpus d n draws steps i prev output = some dist →
      ∃ cnt : String → ℕ,
        (∀ p, lookupD dist p = lookupD output p + (cnt p : ℚ) * (1 / (n : ℚ))) ∧
        (∀ p, cnt p ≠ 0 → p ∈ output.map Prod.fst) ∧
        Finset.sum (output.map Prod.fst).toFinset (fun p => cnt p) = steps := by
  intro steps
  induction steps with
  | zero =>
    intro i prev output dist h
    simp only [sampleLoop, Option.some.injEq] at h
    subst h
    exact ⟨fun _ => 0, fun p => by simp, fun p hc => absurd rfl hc, by simp⟩
  | succ steps ih =>
    intro i prev output dist h
    cases hp : pickNext corpus d draws i prev with
    | none =>
      simp only [sampleLoop, hp] at h
      exact Option.noConfusion h
    | some sample =>
      cases ha : addAt output sample (1 / (n : ℚ)) with
      | none =>
        simp only [sampleLoop, hp, ha] at h
        exact Option.noConfusion h
      | some updated =>
        simp only [sampleLoop, hp, ha] at h
        obtain ⟨cnt, hval, hsupp, hsum⟩ := ih (i + 1) (some sample) updated dist h
        have hukeys := addAt_keys output sample _ updated ha
        have hsmem : sample ∈ output.map Prod.fst := addAt_mem_of_some output sample _ updated ha
        refine ⟨fun p => if p = sample then cnt p + 1 else cnt p, ?_, ?_, ?_⟩
        · intro p
          by_cases hps : p = sample
          · subst hps
            rw [hval p, addAt_lookup_self output p _ updated ha]
            simp only [if_pos rfl]
            push_cast
            ring
          · rw [hval p, addAt_lookup_ne output sample p _ updated ha hps]
            simp only [if_neg hps]
        · intro p hcnt
          by_cases hps : p = sample
          · subst hps; exact hsmem
          · simp only [if_neg hps] at hcnt
            exact hukeys ▸ hsupp p hcnt
        · have hrw : (fun p => if p = sample then cnt p + 1 else cnt p) =
              fun p => cnt p + (if p = sample then 1 else 0) := by
            funext p
            by_cases hps : p = sample <;> simp [hps]
          rw [hrw, Finset.sum_add_distrib]
          have h1 : Finset.sum (output.map Prod.fst).toFinset (fun p => cnt p) = steps := by
            rw [← hsum]
            exact Finset.sum_congr (by rw [hukeys]) (fun _ _ => rfl)
          have h2 : Finset.sum (output.map Prod.fst).toFinset
              (fun p => if p = sample then 1 else 0) = 1 := by
            rw [Finset.sum_ite_eq' (output.map Prod.fst).toFinset sample (fun _ => 1)]
            rw [if_pos (List.mem_toFinset.mpr hsmem)]
          rw [h1, h2]

theorem sampleLoop_total (corpus : Corpus) (d : ℚ) (n : ℤ) (draws : ℕ → ℕ)
    (hwf : WellFormed corpus) (hne : corpus ≠ []) :
    ∀ (steps i : ℕ) (prev : Option String) (output : Dist),
      output.map Prod.fst = keysOf corpus →
      (∀ s, prev = some s → s ∈ keysOf corpus) →
      ∃ dist, sampleLoop corpus d n draws steps i prev output = some dist := by
  intro steps
  induction steps with
  | zero => intro i prev output _ _; exact ⟨output, rfl⟩
  | succ steps ih =>
    intro i prev output hkeys hprev
    obtain ⟨sample, hs⟩ := pickNext_some corpus d draws i hwf hne prev hprev
    have hsmem : sample ∈ keysOf corpus := pickNext_mem corpus d draws i prev sample hs
    obtain ⟨updated, ha⟩ := addAt_some_of_mem output sample (1 / (n : ℚ)) (hkeys ▸ hsmem)
    have hukeys : updated.map Prod.fst = keysOf corpus :=
      (addAt_keys output sample _ updated ha) ▸ hkeys
    obtain ⟨dist, hdist⟩ := ih (i + 1) (some sample) updated hukeys
      (fun s hseq => (Option.some.inj hseq) ▸ hsmem)
    exact ⟨dist, by simp only [sampleLoop, hs, ha, hdist]⟩


theorem toNat_cast_rat (n : ℤ) (hn : 1 ≤ n) : ((n.toNat : ℚ)) = (n : ℚ) := by
  have h1 : ((n.toNat : ℤ)) = n := Int.toNat_of_nonneg (le_trans zero_le_one hn)
  exact_mod_cast congrArg (fun z : ℤ => (z : ℚ)) h1

theorem dist_singleton : ∀ (dist : Dist) (a : String),
    dist.map Prod.fst = [a] → ∃ v, dist = [(a, v)] := by
  intro dist a h
  cases dist with
  | nil => simp at h
  | cons e rest =>
    cases rest with
    | nil =>
      rcases e with ⟨e1, e2⟩
      simp only [List.map_cons, List.map_nil, List.cons.injEq] at h
      exact ⟨e2, by rw [h.1]⟩
    | cons e2 r2 => simp at h

/-- Claim C6: for a non-empty well-formed graph, a damping factor in [0,1],
a sample count n ≥ 1 and any sequence of random draws, `sample_pagerank`
returns a distribution whose values sum exactly to 1 (each of the n samples
contributes weight exactly 1/n, in exact rational arithmetic). -/
theorem claim_C6_sample_normalized (corpus : Corpus) (d : ℚ) (n : ℤ)
    (draws : ℕ → ℕ) (hwf : WellFormed corpus) (hne : corpus ≠ [])
    (hd0 : 0 ≤ d) (hd1 : d ≤ 1) (hn : 1 ≤ n) :
    ∃ dist, sample_pagerank corpus d n draws = some dist ∧ dsum dist = 1 := by
  have hzkeys : (corpus.map (fun e => (e.1, (0 : ℚ)))).map Prod.fst = keysOf corpus :=
    keys_map_eval (fun _ => 0) corpus
  obtain ⟨dist, hdist⟩ := sampleLoop_total corpus d n draws hwf hne n.toNat 0 none
    (corpus.map (fun e => (e.1, (0 : ℚ)))) hzkeys (fun s hs => Option.noConfusion hs)
  refine ⟨dist, hdist, ?_⟩
  have hsum := sampleLoop_dsum corpus d n draws n.toNat 0 none
    (corpus.map (fun e => (e.1, (0 : ℚ)))) dist hdist
  rw [dsum_map_const corpus 0, toNat_cast_rat n hn] at hsum
  have hnz : (n : ℚ) ≠ 0 := by
    have : (1 : ℚ) ≤ (n : ℚ) := by exact_mod_cast hn
    linarith
  rw [hsum]
  field_simp

/-- Witness for C6 on a two-node graph, five samples. -/
theorem claim_C6_witness :
    ∃ dist, sample_pagerank [("A", []), ("B", ["A"])] (17/20) 5 (fun i => i) = some dist ∧
      dsum dist = 1 :=
  claim_C6_sample_normalized [("A", []), ("B", ["A"])] (17/20) 5 (fun i => i)
    (by constructor <;> decide) (by decide) (by norm_num) (by norm_num) (by norm_num)

/-- Claim C10: whenever `sample_pagerank` returns a mapping (non-empty
graph, any damping factor, n ≥ 1, any draws), that mapping has exactly the
graph's nodes as keys and each value is c/n for the number of times c that
node was drawn; the counts sum to n and every value lies in [0,1]. -/
theorem claim_C10_sample_counts (corpus : Corpus) (d : ℚ) (n : ℤ)
    (draws : ℕ → ℕ) (dist : Dist) (hne : corpus ≠ []) (hn : 1 ≤ n)
    (hdist : sample_pagerank corpus d n draws = some dist) :
    dist.map Prod.fst = keysOf corpus ∧
    ∃ cnt : String → ℕ,
      Finset.sum (keysOf corpus).toFinset (fun p => cnt p) = n.toNat ∧
      ∀ p, lookupD dist p = (cnt p : ℚ) / (n : ℚ) ∧
        0 ≤ lookupD dist p ∧ lookupD dist p ≤ 1 ∧ cnt p ≤ n.toNat := by
  have hzkeys : (corpus.map (fun e => (e.1, (0 : ℚ)))).map Prod.fst = keysOf corpus :=
    keys_map_eval (fun _ => 0) corpus
  have hloop : sampleLoop corpus d n draws n.toNat 0 none
      (corpus.map (fun e => (e.1, (0 : ℚ)))) = some dist := hdist
  have hkeys := sampleLoop_keys corpus d n draws n.toNat 0 none _ dist hloop
  obtain ⟨cnt, hval, hsupp, hsum⟩ := sampleLoop_counts corpus d n draws n.toNat 0 none _ dist hloop
  rw [hzkeys] at hkeys hsum
  have hn1 : (1 : ℚ) ≤ (n : ℚ) := by exact_mod_cast hn
  have hnpos : (0 : ℚ) < (n : ℚ) := by linarith
  have hcle : ∀ p, cnt p ≤ n.toNat := by
    intro p
    by_cases hp : p ∈ (keysOf corpus).toFinset
    · rw [← hsum]
      exact Finset.single_le_sum (fun q _ => Nat.zero_le (cnt q)) hp
    · have : cnt p = 0 := by
        by_contra hc
        exact hp (List.mem_toFinset.mpr (hzkeys ▸ hsupp p hc))
      rw [this]
      exact Nat.zero_le _
  refine ⟨hkeys, cnt, hsum, ?_⟩
  intro p
  have hv : lookupD dist p = (cnt p : ℚ) / (n : ℚ) := by
    rw [hval p, lookupD_map_eval (fun _ => 0) corpus p]
    simp only [ite_self, zero_add, mul_one_div]
  refine ⟨hv, ?_, ?_, hcle p⟩
  · rw [hv]
    positivity
  · rw [hv, div_le_one hnpos]
    calc ((cnt p : ℚ)) ≤ ((n.toNat : ℚ)) := by exact_mod_cast hcle p
    _ = (n : ℚ) := toNat_cast_rat n hn

/-- On the single-node graph `{A: {}}` every sampling run returns `{A: 1}`,
whatever the damping factor, the draws and the positive sample count. -/
theorem sample_pagerank_single (d : ℚ) (n : ℤ) (draws : ℕ → ℕ) (hn : 1 ≤ n) :
    sample_pagerank corpusA d n draws = some [("A", 1)] := by
  have hwf : WellFormed corpusA := by constructor <;> decide
  have hne : corpusA ≠ [] := by decide
  have hzkeys : (corpusA.map (fun e => (e.1, (0 : ℚ)))).map Prod.fst = keysOf corpusA :=
    keys_map_eval (fun _ => 0) corpusA
  obtain ⟨dist, hdist⟩ := sampleLoop_total corpusA d n draws hwf hne n.toNat 0 none
    (corpusA.map (fun e => (e.1, (0 : ℚ)))) hzkeys (fun s hs => Option.noConfusion hs)
  have hkeys := sampleLoop_keys corpusA d n draws n.toNat 0 none _ dist hdist
  obtain ⟨cnt, hval, hsupp, hsum⟩ := sampleLoop_counts corpusA d n draws n.toNat 0 none _ dist hdist
  have hkeysA : dist.map Prod.fst = ["A"] := by rw [hkeys]; rfl
  obtain ⟨v, hv⟩ := dist_singleton dist "A" hkeysA
  have hsumA : cnt "A" = n.toNat := by
    have h1 : (corpusA.map (fun e => (e.1, (0 : ℚ)))).map Prod.fst = ["A"] := rfl
    rw [h1] at hsum
    simpa using hsum
  have hvalA : lookupD dist "A" = (cnt "A" : ℚ) * (1 / (n : ℚ)) := by
    rw [hval "A", lookupD_map_eval (fun _ => 0) corpusA "A"]
    simp
  have hnz : (n : ℚ) ≠ 0 := by
    have : (1 : ℚ) ≤ (n : ℚ) := by exact_mod_cast hn
    linarith
  have hv1 : v = 1 := by
    have h2 : lookupD dist "A" = v := by rw [hv]; simp [lookupD]
    rw [h2] at hvalA
    rw [hvalA, hsumA, toNat_cast_rat n hn]
    field_simp
  rw [hv, hv1] at hdist
  exact hdist

/-- Witness for C10: two samples on the single-node graph. -/
theorem claim_C10_witness :
    ([("A", (1 : ℚ))] : Dist).map Prod.fst = keysOf corpusA ∧
    ∃ cnt : String → ℕ,
      Finset.sum (keysOf corpusA).toFinset (fun p => cnt p) = (2 : ℤ).toNat ∧
      ∀ p, lookupD [("A", (1 : ℚ))] p = (cnt p : ℚ) / ((2 : ℤ) : ℚ) ∧
        0 ≤ lookupD [("A", (1 : ℚ))] p ∧
        lookupD [("A", (1 : ℚ))] p ≤ 1 ∧ cnt p ≤ (2 : ℤ).toNat :=
  claim_C10_sample_counts corpusA (1/2) 2 (fun _ => 0) [("A", (1 : ℚ))]
    (by decide) (by norm_num)
    (sample_pagerank_single (1/2) 2 (fun _ => 0) (by norm_num))


/-! ### Small concrete graphs, symbolically in the damping factor -/

theorem pass_corpusA (d x : ℚ) :
    pass corpusA d [("A", x)] = [("A", 1 - d + d * x)] := by
  have h : prob_visit_from_other corpusA [("A", x)] "A" = x := by
    simp [prob_visit_from_other, corpusA, lookupD]
  simp only [pass, keysOf, List.map_cons, List.map_nil, List.foldl_cons,
    List.foldl_nil, h, setAt]
  norm_num [corpusA]

theorem sigdiff_single (x y : ℚ) :
    significant_differences [("A", y)] [("A", x)] =
      if 1 / 1000 < |y - x| then [y - x] else [] := by
  by_cases h : (1 : ℚ) / 1000 < |y - x|
  · have h2 : (1000⁻¹ : ℚ) < |y - x| := by rwa [one_div] at h
    simp [significant_differences, lookupD, h2]
  · have h2 : ¬(1000⁻¹ : ℚ) < |y - x| := by rwa [one_div] at h
    simp [significant_differences, lookupD, h2]

theorem iterate_pagerank_single (d : ℚ) (fuel : ℕ) (hf : 1 ≤ fuel) :
    iterate_pagerank corpusA d fuel = some [("A", 1)] := by
  obtain ⟨f, rfl⟩ : ∃ f, fuel = f + 1 := ⟨fuel - 1, by omega⟩
  have hinit : initRank corpusA = [("A", 1)] := by
    norm_num [initRank, corpusA]
  have hpass : pass corpusA d [("A", 1)] = [("A", 1)] := by
    rw [pass_corpusA]
    norm_num
  show iterLoop corpusA d (f + 1) (initRank corpusA) = some [("A", 1)]
  rw [hinit]
  simp only [iterLoop, hpass, sigdiff_single 1 1]
  norm_num

theorem pass_corpusB (d x : ℚ) :
    pass [("A", ["B"])] d [("A", x)] = [("A", 1 - d)] := by
  have h : prob_visit_from_other [("A", ["B"])] [("A", x)] "A" = 0 := by
    simp [prob_visit_from_other, lookupD]
  simp only [pass, keysOf, List.map_cons, List.map_nil, List.foldl_cons,
    List.foldl_nil, h, setAt]
  norm_num

theorem iterate_corpusB (d : ℚ) (fuel : ℕ) (hf : 2 ≤ fuel) :
    iterate_pagerank [("A", ["B"])] d fuel = some [("A", 1 - d)] := by
  obtain ⟨f, rfl⟩ : ∃ f, fuel = f + 2 := ⟨fuel - 2, by omega⟩
  have hinit : initRank [("A", ["B"])] = [("A", 1)] := by
    norm_num [initRank]
  have hp1 : pass [("A", ["B"])] d [("A", 1)] = [("A", 1 - d)] := pass_corpusB d 1
  have hp2 : pass [("A", ["B"])] d [("A", 1 - d)] = [("A", 1 - d)] := pass_corpusB d (1 - d)
  show iterLoop [("A", ["B"])] d (f + 1 + 1) (initRank [("A", ["B"])]) = some [("A", 1 - d)]
  rw [hinit]
  simp only [iterLoop, hp1, sigdiff_single 1 (1 - d)]
  by_cases hd : (1 : ℚ) / 1000 < |1 - d - 1|
  · rw [if_pos hd]
    simp only [List.length_cons, List.length_nil]
    rw [if_neg (by norm_num)]
    simp only [iterLoop, hp2, sigdiff_single (1 - d) (1 - d)]
    norm_num
  · rw [if_neg hd]
    simp

/-- Claim C9: on the single-node graph {A: {}} both estimators return
exactly {A: 1}: `sample_pagerank` for every damping factor in [0,1], every
n ≥ 1 and every draw sequence, `iterate_pagerank` for every damping factor
in [0,1] (and any positive fuel). -/
theorem claim_C9_single_node (d : ℚ) (n : ℤ) (draws : ℕ → ℕ) (fuel : ℕ)
    (hd0 : 0 ≤ d) (hd1 : d ≤ 1) (hn : 1 ≤ n) (hf : 1 ≤ fuel) :
    sample_pagerank corpusA d n draws = some [("A", 1)] ∧
    iterate_pagerank corpusA d fuel = some [("A", 1)] :=
  ⟨sample_pagerank_single d n draws hn, iterate_pagerank_single d fuel hf⟩

/-- Witness for C9. -/
theorem claim_C9_witness :
    sample_pagerank corpusA (17/20) 3 (fun _ => 1) = some [("A", 1)] ∧
    iterate_pagerank corpusA (17/20) 4 = some [("A", 1)] :=
  claim_C9_single_node (17/20) 3 (fun _ => 1) 4
    (by norm_num) (by norm_num) (by norm_num) (by norm_num)

/-- Counterexample to C7 as stated: a call of `sample_pagerank` with the
invalid sample count n = 0 is not rejected; it returns the all-zero mapping
(the Python loop body never runs), not a failure. -/
theorem claim_C7_counterexample :
    sample_pagerank corpusA (1/2) 0 (fun _ => 0) = some [("A", 0)] ∧
    sample_pagerank corpusA (1/2) 0 (fun _ => 0) ≠ none := by
  refine ⟨rfl, ?_⟩
  intro h
  rw [show sample_pagerank corpusA (1/2) 0 (fun _ => 0) = some [("A", 0)]
    from rfl] at h
  exact Option.noConfusion h

/-- Claim C7 (amended): neither `sample_pagerank` nor `iterate_pagerank`
validates its parameters. A call with sample count n < 1 returns the
all-zero mapping over the graph's nodes instead of failing, and calls with
a damping factor outside [0,1] (here d = 2) are accepted and return
normally. -/
theorem claim_C7_amended (corpus : Corpus) (d : ℚ) (draws draws2 : ℕ → ℕ)
    (n n2 : ℤ) (fuel : ℕ) (hn : n < 1) (hn2 : 1 ≤ n2) (hf : 1 ≤ fuel) :
    sample_pagerank corpus d n draws = some (corpus.map (fun e => (e.1, (0 : ℚ)))) ∧
    sample_pagerank corpusA 2 n2 draws2 = some [("A", 1)] ∧
    iterate_pagerank corpusA 2 fuel = some [("A", 1)] := by
  refine ⟨?_, sample_pagerank_single 2 n2 draws2 hn2, iterate_pagerank_single 2 fuel hf⟩
  have h0 : n.toNat = 0 := by omega
  show sampleLoop corpus d n draws n.toNat 0 none
    (corpus.map (fun e => (e.1, (0 : ℚ)))) = some (corpus.map (fun e => (e.1, (0 : ℚ))))
  rw [h0]
  rfl

/-- Witness for the amended C7. -/
theorem claim_C7_amended_witness :
    sample_pagerank corpusA (1/2) 0 (fun _ => 0) =
      some (corpusA.map (fun e => (e.1, (0 : ℚ)))) ∧
    sample_pagerank corpusA 2 1 (fun _ => 0) = some [("A", 1)] ∧
    iterate_pagerank corpusA 2 1 = some [("A", 1)] :=
  claim_C7_amended corpusA (1/2) (fun _ => 0) (fun _ => 0) 0 1 1
    (by norm_num) (by norm_num) (by norm_num)

/-- Counterexample to C8 as stated: `iterate_pagerank` on the invalid
zero-node graph does not reject; it returns the empty mapping. -/
theorem claim_C8_counterexample :
    iterate_pagerank ([] : Corpus) (17/20) 1 = some [] ∧
    iterate_pagerank ([] : Corpus) (17/20) 1 ≠ none := by
  refine ⟨rfl, ?_⟩
  intro h
  rw [show iterate_pagerank ([] : Corpus) (17/20) 1 = some [] from rfl] at h
  exact Option.noConfusion h

/-- Claim C8 (amended): on a zero-node graph `transition_model` and
`sample_pagerank` do fail (an uncaught KeyError / empty-choice error, not a
descriptive rejection), and `transition_model` fails when the current
page's edge set references an unknown node; but `iterate_pagerank` does not
reject invalid graphs: it returns the empty mapping on the zero-node graph,
and on a graph whose edge leaves the key set it returns a normally-computed
mapping in which the missing target's mass is silently dropped (the result
sums to 1 - d, not 1). -/
theorem claim_C8_amended (page : String) (d : ℚ) (n : ℤ) (draws : ℕ → ℕ)
    (fuel1 fuel2 : ℕ) (hn : 1 ≤ n) (hf1 : 1 ≤ fuel1) (hf2 : 2 ≤ fuel2) :
    transition_model ([] : Corpus) page d = none ∧
    sample_pagerank ([] : Corpus) d n draws = none ∧
    iterate_pagerank ([] : Corpus) d fuel1 = some [] ∧
    transition_model [("A", ["B"])] "A" d = none ∧
    iterate_pagerank [("A", ["B"])] d fuel2 = some [("A", 1 - d)] := by
  refine ⟨transition_model_of_none [] page d rfl, ?_, ?_, rfl,
    iterate_corpusB d fuel2 hf2⟩
  · obtain ⟨m, hm⟩ : ∃ m, n.toNat = m + 1 := ⟨n.toNat - 1, by omega⟩
    show sampleLoop [] d n draws n.toNat 0 none
      (([] : Corpus).map (fun e => (e.1, (0 : ℚ)))) = none
    rw [hm]
    rfl
  · obtain ⟨m, hm⟩ : ∃ m, fuel1 = m + 1 := ⟨fuel1 - 1, by omega⟩
    rw [hm]
    rfl

/-- Witness for the amended C8. -/
theorem claim_C8_amended_witness :
    transition_model ([] : Corpus) "X" (17/20) = none ∧
    sample_pagerank ([] : Corpus) (17/20) 1 (fun _ => 0) = none ∧
    iterate_pagerank ([] : Corpus) (17/20) 1 = some [] ∧
    transition_model [("A", ["B"])] "A" (17/20) = none ∧
    iterate_pagerank [("A", ["B"])] (17/20) 2 = some [("A", 1 - 17/20)] :=
  claim_C8_amended "X" (17/20) 1 (fun _ => 0) 1 2
    (by norm_num) (by norm_num) (by norm_num)


/-! ### The update operator as a sum -/

theorem foldl_visit (corpus : Corpus) (cur : Dist) (p : String) :
    ∀ (l : List (String × List String)) (c : ℚ),
      l.foldl (fun acc e =>
        if e.2 = [] then acc + lookupD cur e.1 / (corpus.length : ℚ)
        else if p ∈ e.2 then acc + lookupD cur e.1 / (e.2.length : ℚ)
        else acc) c
      = c + (l.map (fun e => lookupD cur e.1 * wgt corpus e p)).sum := by
  intro l
  induction l with
  | nil => intro c; simp
  | cons e rest ih =>
    intro c
    simp only [List.foldl_cons]
    rw [ih, List.map_cons, List.sum_cons]
    have hbody : (if e.2 = [] then c + lookupD cur e.1 / (corpus.length : ℚ)
        else if p ∈ e.2 then c + lookupD cur e.1 / (e.2.length : ℚ) else c)
        = c + lookupD cur e.1 * wgt corpus e p := by
      rw [wgt]
      by_cases h1 : e.2 = []
      · rw [if_pos h1, if_pos h1, mul_one_div]
      · by_cases h2 : p ∈ e.2
        · rw [if_neg h1, if_neg h1, if_pos h2, if_pos h2, mul_one_div]
        · rw [if_neg h1, if_neg h1, if_neg h2, if_neg h2, mul_zero, add_zero]
    rw [hbody]
    ring

theorem prob_visit_eq_sum (corpus : Corpus) (cur : Dist) (p : String) :
    prob_visit_from_other corpus cur p =
      (corpus.map (fun e => lookupD cur e.1 * wgt corpus e p)).sum := by
  rw [prob_visit_from_other, foldl_visit corpus cur p corpus 0, zero_add]

theorem corpus_nodup (corpus : Corpus) (hnd : (keysOf corpus).Nodup) :
    corpus.Nodup :=
  List.Nodup.of_map Prod.fst hnd

theorem sum_list_toFinset (corpus : Corpus) (hnd : (keysOf corpus).Nodup)
    (F : String × List String → ℚ) :
    (corpus.map F).sum = Finset.sum corpus.toFinset F :=
  (List.sum_toFinset F (corpus_nodup corpus hnd)).symm

theorem sum_fst_transfer (corpus : Corpus) (hnd : (keysOf corpus).Nodup)
    (F : String → ℚ) :
    Finset.sum corpus.toFinset (fun e => F e.1) =
      Finset.sum (keysOf corpus).toFinset F := by
  rw [← sum_list_toFinset corpus hnd (fun e => F e.1), List.sum_toFinset F hnd]
  rw [keysOf, List.map_map]
  rfl

theorem prob_visit_eq_finset_sum (corpus : Corpus) (hnd : (keysOf corpus).Nodup)
    (cur : Dist) (p : String) :
    prob_visit_from_other corpus cur p =
      Finset.sum corpus.toFinset (fun e => lookupD cur e.1 * wgt corpus e p) := by
  rw [prob_visit_eq_sum, sum_list_toFinset corpus hnd]

/-- Claim C1: one pass of the `iterate_pagerank` loop computes every new
rank from the full previous vector (the snapshot `output_copy`): for a
graph whose edge targets are all keys, the new rank of `p` is `(1-d)/N`
plus `d` times the sum over all nodes `q` of `prev(q)/outdeg(q)` when `q`
links to `p` (outdegree positive), `prev(q)/N` when `q` is dangling, and 0
otherwise. -/
theorem claim_C1_pass_recurrence (corpus : Corpus) (d : ℚ) (prev : Dist)
    (p : String) (hwf : WellFormed corpus) (hd0 : 0 ≤ d) (hd1 : d ≤ 1)
    (hkeys : prev.map Prod.fst = keysOf corpus) (hp : p ∈ keysOf corpus) :
    lookupD (pass corpus d prev) p
      = (1 - d) / (corpus.length : ℚ)
        + d * Finset.sum (keysOf corpus).toFinset (fun q =>
            if linksOf corpus q = [] then
              lookupD prev q / (corpus.length : ℚ)
            else if p ∈ linksOf corpus q then
              lookupD prev q / ((linksOf corpus q).length : ℚ)
            else 0) := by
  rw [pass_lookup corpus d prev p, hkeys, if_pos hp]
  congr 1
  congr 1
  rw [prob_visit_eq_finset_sum corpus hwf.1 prev p,
    ← sum_fst_transfer corpus hwf.1]
  apply Finset.sum_congr rfl
  intro e he
  have hmem : e ∈ corpus := List.mem_toFinset.mp he
  have hlnk : linksOf corpus e.1 = e.2 := by
    rw [linksOf, corpusLinks_entry corpus hwf.1 e.1 e.2 hmem]
    rfl
  rw [hlnk, wgt]
  by_cases h1 : e.2 = []
  · rw [if_pos h1, if_pos h1, mul_one_div]
  · by_cases h2 : p ∈ e.2
    · rw [if_neg h1, if_neg h1, if_pos h2, if_pos h2, mul_one_div]
    · rw [if_neg h1, if_neg h1, if_neg h2, if_neg h2, mul_zero]

/-- Witness for C1 on a two-node graph with one dangling node. -/
theorem claim_C1_witness :
    lookupD (pass [("A", ["B"]), ("B", [])] (17/20) [("A", 1/2), ("B", 1/2)]) "A"
      = (1 - 17/20) / ((([("A", ["B"]), ("B", [])] : Corpus).length : ℚ) : ℚ)
        + (17/20) * Finset.sum (keysOf [("A", ["B"]), ("B", [])]).toFinset (fun q =>
            if linksOf [("A", ["B"]), ("B", [])] q = [] then
              lookupD [("A", 1/2), ("B", 1/2)] q /
                ((([("A", ["B"]), ("B", [])] : Corpus).length : ℚ) : ℚ)
            else if "A" ∈ linksOf [("A", ["B"]), ("B", [])] q then
              lookupD [("A", 1/2), ("B", 1/2)] q /
                (((linksOf [("A", ["B"]), ("B", [])] q).length : ℚ) : ℚ)
            else 0) :=
  claim_C1_pass_recurrence [("A", ["B"]), ("B", [])] (17/20) [("A", 1/2), ("B", 1/2)] "A"
    (by constructor <;> decide) (by norm_num) (by norm_num) (by decide) (by decide)


/-! ### L1 contraction of the update operator and termination -/

theorem wgt_nonneg (corpus : Corpus) (e : String × List String) (p : String) :
    0 ≤ wgt corpus e p := by
  rw [wgt]
  by_cases h1 : e.2 = []
  · rw [if_pos h1]
    positivity
  · rw [if_neg h1]
    by_cases h2 : p ∈ e.2
    · rw [if_pos h2]
      positivity
    · rw [if_neg h2]

theorem rowsum (corpus : Corpus) (hwf : WellFormed corpus) (hne : corpus ≠ [])
    (e : String × List String) (he : e ∈ corpus) :
    Finset.sum (keysOf corpus).toFinset (fun p => wgt corpus e p) = 1 := by
  have hN : (corpus.length : ℚ) ≠ 0 :=
    Nat.cast_ne_zero.mpr (fun hc => hne (List.length_eq_zero.mp hc))
  have hcard : (keysOf corpus).toFinset.card = corpus.length := by
    rw [List.toFinset_card_of_nodup hwf.1, keysOf, List.length_map]
  by_cases h1 : e.2 = []
  · have hconst : ∀ p ∈ (keysOf corpus).toFinset,
        wgt corpus e p = 1 / (corpus.length : ℚ) := by
      intro p _
      rw [wgt, if_pos h1]
    rw [Finset.sum_congr rfl hconst, Finset.sum_const, hcard, nsmul_eq_mul]
    field_simp
  · have hnd2 : e.2.Nodup := (hwf.2 e he).1
    have hsub : ∀ q ∈ e.2, q ∈ keysOf corpus := (hwf.2 e he).2
    have hk : ((e.2.length : ℚ)) ≠ 0 :=
      Nat.cast_ne_zero.mpr (fun hc => h1 (List.length_eq_zero.mp hc))
    have hwgt : ∀ p ∈ (keysOf corpus).toFinset,
        wgt corpus e p = if p ∈ e.2 then 1 / (e.2.length : ℚ) else 0 := by
      intro p _
      rw [wgt, if_neg h1]
    rw [Finset.sum_congr rfl hwgt, ← Finset.sum_filter]
    have hfil : (keysOf corpus).toFinset.filter (fun p => p ∈ e.2) = e.2.toFinset := by
      ext q
      simp only [Finset.mem_filter, List.mem_toFinset]
      constructor
      · intro hq
        exact hq.2
      · intro hq
        exact ⟨hsub q hq, hq⟩
    rw [hfil, Finset.sum_const, List.toFinset_card_of_nodup hnd2, nsmul_eq_mul]
    field_simp

theorem applyT_sub (corpus : Corpus) (d : ℚ) (g h : String → ℚ) (p : String) :
    applyT corpus d g p - applyT corpus d h p =
      d * Finset.sum corpus.toFinset (fun e => (g e.1 - h e.1) * wgt corpus e p) := by
  rw [applyT, applyT]
  have hs : Finset.sum corpus.toFinset (fun e => (g e.1 - h e.1) * wgt corpus e p) =
      Finset.sum corpus.toFinset (fun e => g e.1 * wgt corpus e p)
        - Finset.sum corpus.toFinset (fun e => h e.1 * wgt corpus e p) := by
    rw [← Finset.sum_sub_distrib]
    apply Finset.sum_congr rfl
    intro e _
    ring
  rw [hs]
  ring

theorem applyT_l1_contraction (corpus : Corpus) (d : ℚ) (hwf : WellFormed corpus)
    (hne : corpus ≠ []) (hd0 : 0 ≤ d) (g h : String → ℚ) :
    Finset.sum (keysOf corpus).toFinset
        (fun p => |applyT corpus d g p - applyT corpus d h p|)
      ≤ d * Finset.sum (keysOf corpus).toFinset (fun q => |g q - h q|) := by
  have hpt : ∀ p, |applyT corpus d g p - applyT corpus d h p|
      ≤ d * Finset.sum corpus.toFinset (fun e => |g e.1 - h e.1| * wgt corpus e p) := by
    intro p
    rw [applyT_sub, abs_mul, abs_of_nonneg hd0]
    apply mul_le_mul_of_nonneg_left _ hd0
    calc |Finset.sum corpus.toFinset (fun e => (g e.1 - h e.1) * wgt corpus e p)|
        ≤ Finset.sum corpus.toFinset (fun e => |(g e.1 - h e.1) * wgt corpus e p|) :=
          Finset.abs_sum_le_sum_abs _ _
      _ = Finset.sum corpus.toFinset (fun e => |g e.1 - h e.1| * wgt corpus e p) := by
          apply Finset.sum_congr rfl
          intro e _
          rw [abs_mul, abs_of_nonneg (wgt_nonneg corpus e p)]
  refine le_trans (Finset.sum_le_sum (fun p _ => hpt p)) (le_of_eq ?_)
  rw [← Finset.mul_sum]
  congr 1
  rw [Finset.sum_comm, ← sum_fst_transfer corpus hwf.1 (fun q => |g q - h q|)]
  apply Finset.sum_congr rfl
  intro e he
  rw [← Finset.mul_sum, rowsum corpus hwf hne e (List.mem_toFinset.mp he), mul_one]

theorem pass_applyT (corpus : Corpus) (d : ℚ) (x : Dist)
    (hnd : (keysOf corpus).Nodup) (hkeys : x.map Prod.fst = keysOf corpus)
    (p : String) (hp : p ∈ keysOf corpus) :
    lookupD (pass corpus d x) p = applyT corpus d (lookupD x) p := by
  rw [pass_lookup, hkeys, if_pos hp, applyT, prob_visit_eq_finset_sum corpus hnd]

theorem iter_keys (corpus : Corpus) (d : ℚ) :
    ∀ k, (((pass corpus d)^[k]) (initRank corpus)).map Prod.fst = keysOf corpus := by
  intro k
  induction k with
  | zero =>
    rw [Function.iterate_zero_apply]
    exact keys_map_eval (fun _ => 1 / (corpus.length : ℚ)) corpus
  | succ k ih =>
    rw [Function.iterate_succ_apply', pass_keys, ih]

theorem iter_succ_lookup (corpus : Corpus) (d : ℚ) (hnd : (keysOf corpus).Nodup)
    (k : ℕ) (p : String) (hp : p ∈ keysOf corpus) :
    lookupD (((pass corpus d)^[k + 1]) (initRank corpus)) p
      = applyT corpus d (lookupD (((pass corpus d)^[k]) (initRank corpus))) p := by
  rw [Function.iterate_succ_apply']
  exact pass_applyT corpus d _ hnd (iter_keys corpus d k) p hp

theorem diff_contract (corpus : Corpus) (d : ℚ) (hwf : WellFormed corpus)
    (hne : corpus ≠ []) (hd0 : 0 ≤ d) (k : ℕ) :
    Finset.sum (keysOf corpus).toFinset
        (fun p => |lookupD ((pass corpus d)^[k + 2] (initRank corpus)) p
          - lookupD ((pass corpus d)^[k + 1] (initRank corpus)) p|)
      ≤ d * Finset.sum (keysOf corpus).toFinset
        (fun p => |lookupD ((pass corpus d)^[k + 1] (initRank corpus)) p
          - lookupD ((pass corpus d)^[k] (initRank corpus)) p|) := by
  have h1 : ∀ p ∈ (keysOf corpus).toFinset,
      |lookupD ((pass corpus d)^[k + 2] (initRank corpus)) p
        - lookupD ((pass corpus d)^[k + 1] (initRank corpus)) p|
      = |applyT corpus d (lookupD ((pass corpus d)^[k + 1] (initRank corpus))) p
        - applyT corpus d (lookupD ((pass corpus d)^[k] (initRank corpus))) p| := by
    intro p hp
    rw [iter_succ_lookup corpus d hwf.1 (k + 1) p (List.mem_toFinset.mp hp),
      iter_succ_lookup corpus d hwf.1 k p (List.mem_toFinset.mp hp)]
  rw [Finset.sum_congr rfl h1]
  exact applyT_l1_contraction corpus d hwf hne hd0 _ _

theorem diff_pow (corpus : Corpus) (d : ℚ) (hwf : WellFormed corpus)
    (hne : corpus ≠ []) (hd0 : 0 ≤ d) :
    ∀ k, Finset.sum (keysOf corpus).toFinset
        (fun p => |lookupD ((pass corpus d)^[k + 1] (initRank corpus)) p
          - lookupD ((pass corpus d)^[k] (initRank corpus)) p|)
      ≤ d ^ k * Finset.sum (keysOf corpus).toFinset
        (fun p => |lookupD ((pass corpus d)^[0 + 1] (initRank corpus)) p
          - lookupD ((pass corpus d)^[0] (initRank corpus)) p|) := by
  intro k
  induction k with
  | zero => simp
  | succ k ih =>
    refine le_trans (diff_contract corpus d hwf hne hd0 k) ?_
    refine le_trans (mul_le_mul_of_nonneg_left ih hd0) (le_of_eq ?_)
    rw [pow_succ]
    ring

theorem exists_small_diff (corpus : Corpus) (d : ℚ) (hwf : WellFormed corpus)
    (hne : corpus ≠ []) (hd0 : 0 ≤ d) (hd1 : d < 1) :
    ∃ k, ∀ p ∈ keysOf corpus,
      |lookupD ((pass corpus d)^[k + 1] (initRank corpus)) p
        - lookupD ((pass corpus d)^[k] (initRank corpus)) p| ≤ 1 / 1000 := by
  have hC0 : 0 ≤ (Finset.sum (keysOf corpus).toFinset (fun p => |lookupD ((pass corpus d)^[0 + 1] (initRank corpus)) p - lookupD ((pass corpus d)^[0] (initRank corpus)) p|)) :=
    Finset.sum_nonneg (fun p _ => abs_nonneg _)
  have hpos : 0 < (1 / 1000 : ℚ) / ((Finset.sum (keysOf corpus).toFinset (fun p => |lookupD ((pass corpus d)^[0 + 1] (initRank corpus)) p - lookupD ((pass corpus d)^[0] (initRank corpus)) p|)) + 1) := by positivity
  obtain ⟨k, hk⟩ := exists_pow_lt_of_lt_one hpos hd1
  refine ⟨k, ?_⟩
  intro p hp
  have h1 : |lookupD ((pass corpus d)^[k + 1] (initRank corpus)) p
      - lookupD ((pass corpus d)^[k] (initRank corpus)) p|
      ≤ Finset.sum (keysOf corpus).toFinset
        (fun q => |lookupD ((pass corpus d)^[k + 1] (initRank corpus)) q
          - lookupD ((pass corpus d)^[k] (initRank corpus)) q|) := by
    exact @Finset.single_le_sum String ℚ _
      (fun q => |lookupD ((pass corpus d)^[k + 1] (initRank corpus)) q
        - lookupD ((pass corpus d)^[k] (initRank corpus)) q|)
      (keysOf corpus).toFinset (fun q _ => abs_nonneg _) p (List.mem_toFinset.mpr hp)
  have h2 := diff_pow corpus d hwf hne hd0 k
  have h3 : d ^ k * (Finset.sum (keysOf corpus).toFinset (fun p => |lookupD ((pass corpus d)^[0 + 1] (initRank corpus)) p - lookupD ((pass corpus d)^[0] (initRank corpus)) p|)) ≤ ((1 / 1000 : ℚ) / ((Finset.sum (keysOf corpus).toFinset (fun p => |lookupD ((pass corpus d)^[0 + 1] (initRank corpus)) p - lookupD ((pass corpus d)^[0] (initRank corpus)) p|)) + 1)) * (Finset.sum (keysOf corpus).toFinset (fun p => |lookupD ((pass corpus d)^[0 + 1] (initRank corpus)) p - lookupD ((pass corpus d)^[0] (initRank corpus)) p|)) :=
    mul_le_mul_of_nonneg_right (le_of_lt hk) hC0
  have h4 : ((1 / 1000 : ℚ) / ((Finset.sum (keysOf corpus).toFinset (fun p => |lookupD ((pass corpus d)^[0 + 1] (initRank corpus)) p - lookupD ((pass corpus d)^[0] (initRank corpus)) p|)) + 1)) * (Finset.sum (keysOf corpus).toFinset (fun p => |lookupD ((pass corpus d)^[0 + 1] (initRank corpus)) p - lookupD ((pass corpus d)^[0] (initRank corpus)) p|)) ≤ 1 / 1000 := by
    rw [div_mul_eq_mul_div, div_le_iff (by linarith)]
    linarith
  linarith

theorem sigdiff_nil (output output_copy : Dist)
    (h : ∀ p ∈ output_copy.map Prod.fst,
      |lookupD output p - lookupD output_copy p| ≤ 1 / 1000) :
    significant_differences output output_copy = [] := by
  rw [significant_differences]
  have hfil : (output_copy.map Prod.fst).filter
      (fun page =>
        decide ((1 : ℚ) / 1000 < |lookupD output page - lookupD output_copy page|)) = [] := by
    rw [List.filter_eq_nil]
    intro a ha
    simp only [decide_eq_true_eq]
    exact not_lt.mpr (h a ha)
  rw [hfil, List.map_nil]

theorem iterLoop_some_of_check (corpus : Corpus) (d : ℚ) :
    ∀ (fuel : ℕ) (x : Dist),
      (∃ k, k < fuel ∧
        significant_differences (pass corpus d ((pass corpus d)^[k] x))
          ((pass corpus d)^[k] x) = []) →
      ∃ r, iterLoop corpus d fuel x = some r := by
  intro fuel
  induction fuel with
  | zero =>
    rintro x ⟨k, hk, _⟩
    omega
  | succ fuel ih =>
    rintro x ⟨k, hk, hsig⟩
    by_cases h0 : (significant_differences (pass corpus d x) x).length = 0
    · exact ⟨pass corpus d x, by simp only [iterLoop, if_pos h0]⟩
    · have hk0 : k ≠ 0 := by
        intro hc
        subst hc
        rw [Function.iterate_zero_apply] at hsig
        exact h0 (by rw [hsig]; rfl)
      obtain ⟨j, rfl⟩ : ∃ j, k = j + 1 := ⟨k - 1, by omega⟩
      obtain ⟨r, hr⟩ := ih (pass corpus d x) ⟨j, by omega, by
        rw [← Function.iterate_succ_apply]
        exact hsig⟩
      exact ⟨r, by simp only [iterLoop, if_neg h0]; exact hr⟩

/-- Claim C4: for every well-formed graph (non-empty, edge targets all
keys) and every damping factor in [0,1), `iterate_pagerank` terminates
(some fuel makes the fuelled loop return), and each loop round returns the
newly computed vector exactly when every node's absolute change from the
immediately preceding vector is at most 0.001, and otherwise repeats from
the new vector. -/
theorem claim_C4_iterate_terminates (corpus : Corpus) (d : ℚ)
    (hwf : WellFormed corpus) (hne : corpus ≠ []) (hd0 : 0 ≤ d) (hd1 : d < 1) :
    (∃ fuel dist, iterate_pagerank corpus d fuel = some dist) ∧
    (∀ (fuel : ℕ) (output : Dist),
      iterLoop corpus d (fuel + 1) output =
        if (significant_differences (pass corpus d output) output).length = 0
        then some (pass corpus d output)
        else iterLoop corpus d fuel (pass corpus d output)) := by
  constructor
  · obtain ⟨k, hk⟩ := exists_small_diff corpus d hwf hne hd0 hd1
    have hsig : significant_differences
        (pass corpus d ((pass corpus d)^[k] (initRank corpus)))
        ((pass corpus d)^[k] (initRank corpus)) = [] := by
      apply sigdiff_nil
      intro p hp
      rw [iter_keys corpus d k] at hp
      have h2 := hk p hp
      rwa [Function.iterate_succ_apply'] at h2
    obtain ⟨r, hr⟩ := iterLoop_some_of_check corpus d (k + 1) (initRank corpus)
      ⟨k, Nat.lt_succ_self k, hsig⟩
    exact ⟨k + 1, r, hr⟩
  · intro fuel output
    rfl

/-- Witness for C4 on the two-node mutually-linking graph with d = 0.85. -/
theorem claim_C4_witness :
    (∃ fuel dist,
      iterate_pagerank [("A", ["B"]), ("B", ["A"])] (17/20) fuel = some dist) ∧
    (∀ (fuel : ℕ) (output : Dist),
      iterLoop [("A", ["B"]), ("B", ["A"])] (17/20) (fuel + 1) output =
        if (significant_differences
            (pass [("A", ["B"]), ("B", ["A"])] (17/20) output) output).length = 0
        then some (pass [("A", ["B"]), ("B", ["A"])] (17/20) output)
        else iterLoop [("A", ["B"]), ("B", ["A"])] (17/20) fuel
          (pass [("A", ["B"]), ("B", ["A"])] (17/20) output)) :=
  claim_C4_iterate_terminates [("A", ["B"]), ("B", ["A"])] (17/20)
    (by constructor <;> decide) (by decide) (by norm_num) (by norm_num)

end PageRank
